import Mathlib

/-!
Shallow embedding of the CSS-modules scoping engine and the style-sheet
orchestrator of the `rust-css-transformer` repository
(`src/css_modules.rs`, `src/stylesheet.rs`), together with theorems
settling the frozen claims about them.

Machine integers are modelled as `Nat` with explicit reduction modulo
`2 ^ 64` (resp. `2 ^ 32`, `2 ^ 8`) where the Rust code relies on the
fixed width.  Fallible Rust functions return `Option`/`Except`; a Rust
panic (`unwrap` on a missing entry, `todo!()`) is modelled as `none`.
-/

namespace CssMod

/-! ### 64-bit arithmetic helpers (Rust `u64` semantics) -/

/-- `2 ^ 64`, the modulus of Rust `u64` arithmetic. -/
def mod64 : Nat := 18446744073709551616

/-- Wrapping `u64` addition. -/
def add64 (a b : Nat) : Nat := (a + b) % mod64

/-- `u64` left rotation by `r` bits (`u64::rotate_left`). -/
def rotl64 (x r : Nat) : Nat := ((x <<< r) % mod64) ||| (x >>> (64 - r))

/-! ### SipHash-1-3 (the algorithm behind Rust `DefaultHasher`)

`std::collections::hash_map::DefaultHasher` is SipHash-1-3 with both
keys zero; `impl Hash for str` feeds the UTF-8 bytes of the string
followed by a single `0xFF` byte.  The implementation below is the
standard SipHash round structure with `c` compression rounds and `d`
finalization rounds, over `Nat` reduced mod `2 ^ 64`. -/

/-- The four 64-bit state words of SipHash. -/
structure SipState where
  v0 : Nat
  v1 : Nat
  v2 : Nat
  v3 : Nat

/-- One SipHash round. -/
def sipRound (s : SipState) : SipState :=
  let v0 := add64 s.v0 s.v1
  let v1 := rotl64 s.v1 13
  let v1 := v1 ^^^ v0
  let v0 := rotl64 v0 32
  let v2 := add64 s.v2 s.v3
  let v3 := rotl64 s.v3 16
  let v3 := v3 ^^^ v2
  let v0 := add64 v0 v3
  let v3 := rotl64 v3 21
  let v3 := v3 ^^^ v0
  let v2 := add64 v2 v1
  let v1 := rotl64 v1 17
  let v1 := v1 ^^^ v2
  let v2 := rotl64 v2 32
  ⟨v0, v1, v2, v3⟩

/-- `n` iterated SipHash rounds. -/
def sipRounds : Nat → SipState → SipState
  | 0, s => s
  | n + 1, s => sipRounds n (sipRound s)

/-- Little-endian value of a byte list (first byte least significant). -/
def leValue : List Nat → Nat
  | [] => 0
  | b :: rest => b % 256 + 256 * leValue rest

/-- The full 8-byte words of a byte stream, as 64-bit little-endian values. -/
def fullWords : List Nat → List Nat
  | b0 :: b1 :: b2 :: b3 :: b4 :: b5 :: b6 :: b7 :: rest =>
      leValue [b0, b1, b2, b3, b4, b5, b6, b7] :: fullWords rest
  | _ => []

/-- The trailing bytes of a byte stream after its full 8-byte words. -/
def tailBytes : List Nat → List Nat
  | _ :: _ :: _ :: _ :: _ :: _ :: _ :: _ :: rest => tailBytes rest
  | l => l

/-- Absorb one 64-bit message word with `c` compression rounds. -/
def sipAbsorb (c : Nat) (s : SipState) (m : Nat) : SipState :=
  let s := { s with v3 := s.v3 ^^^ m }
  let s := sipRounds c s
  { s with v0 := s.v0 ^^^ m }

/-- SipHash with `c` compression rounds and `d` finalization rounds,
keys `k0`, `k1`, over a message given as a list of bytes. -/
def sipHash (c d k0 k1 : Nat) (msg : List Nat) : Nat :=
  let s : SipState :=
    ⟨k0 ^^^ 0x736f6d6570736575, k1 ^^^ 0x646f72616e646f6d,
     k0 ^^^ 0x6c7967656e657261, k1 ^^^ 0x7465646279746573⟩
  let s := (fullWords msg).foldl (sipAbsorb c) s
  let lastWord := leValue (tailBytes msg) ||| ((msg.length % 256) <<< 56)
  let s := sipAbsorb c s lastWord
  let s := { s with v2 := s.v2 ^^^ 0xff }
  let s := sipRounds d s
  s.v0 ^^^ s.v1 ^^^ s.v2 ^^^ s.v3

/-- The UTF-8 bytes of one character. -/
def utf8Char (ch : Char) : List Nat :=
  let n := ch.toNat
  if n < 0x80 then [n]
  else if n < 0x800 then
    [0xC0 ||| (n >>> 6), 0x80 ||| (n &&& 0x3F)]
  else if n < 0x10000 then
    [0xE0 ||| (n >>> 12), 0x80 ||| ((n >>> 6) &&& 0x3F), 0x80 ||| (n &&& 0x3F)]
  else
    [0xF0 ||| (n >>> 18), 0x80 ||| ((n >>> 12) &&& 0x3F),
     0x80 ||| ((n >>> 6) &&& 0x3F), 0x80 ||| (n &&& 0x3F)]

/-- The UTF-8 bytes of a string (`str::as_bytes`). -/
def utf8Bytes (s : String) : List Nat := s.toList.flatMap utf8Char

/-- Rust `DefaultHasher::finish` after hashing a `&str`:
SipHash-1-3, zero keys, over the UTF-8 bytes followed by `0xFF`. -/
def defaultHashStr (s : String) : Nat :=
  sipHash 1 3 0 0 (utf8Bytes s ++ [0xff])

/-! ### The `data_encoding` encoder used by `hash`

`css_modules.rs` builds, once, an `Encoding` over the 64-symbol alphabet
`a-z A-Z 1-9 0 _ -` and encodes the four little-endian bytes of the
truncated hash with it.  With 64 symbols each symbol carries 6 bits; the
bytes are consumed most-significant-bit first and the final partial
group is zero-padded (no padding characters are configured). -/

/-- The 64-symbol alphabet passed to `data_encoding::Specification`. -/
def alphabet : List Char :=
  "abcdefghijklmnopqrstuvwxyzABCDEFGHIJKLMNOPQRSTUVWXYZ1234567890_-".toList

/-- Symbol for a 6-bit group. -/
def symbolOf (i : Nat) : Char := alphabet.getD i 'a'

/-- The bits of `n` as a `w`-bit big-endian list. -/
def toBits (w n : Nat) : List Bool :=
  (List.range w).map (fun i => n.testBit (w - 1 - i))

/-- Value of a big-endian bit list. -/
def bitsVal : List Bool → Nat
  | [] => 0
  | b :: rest => (cond b 1 0) * 2 ^ rest.length + bitsVal rest

/-- Split a bit stream into 6-bit groups, zero-padding the last group on
the right (the `data_encoding` MSB-first convention). -/
def sixGroups : List Bool → List Nat
  | [] => []
  | b0 :: b1 :: b2 :: b3 :: b4 :: b5 :: rest =>
      bitsVal [b0, b1, b2, b3, b4, b5] :: sixGroups rest
  | l => [bitsVal (l ++ List.replicate (6 - l.length) false)]

/-- `ENCODER.encode`: bytes to symbols over `alphabet`. -/
def encodeBytes (bytes : List Nat) : List Char :=
  (sixGroups (bytes.flatMap (toBits 8))).map symbolOf

/-- `u32::to_le_bytes`. -/
def u32LeBytes (n : Nat) : List Nat :=
  [n % 256, n / 256 % 256, n / 65536 % 256, n / 16777216 % 256]

/-- `css_modules.rs::hash`: hash the seed with `DefaultHasher`, truncate
the 64-bit result to `u32`, encode its little-endian bytes over the
alphabet, and prefix `_` when the first encoded byte is an ASCII digit. -/
def hashString (s : String) : String :=
  let h := defaultHashStr s % 4294967296
  let enc := encodeBytes (u32LeBytes h)
  if (enc.headD 'a').isDigit then String.mk ('_' :: enc) else String.mk enc

/-! ### Pattern compiler (`css_modules.rs::Pattern`) -/

/-- A segment in a CSS modules class name pattern. -/
inductive Segment where
  /-- A literal string segment. -/
  | literal (s : String)
  /-- The base file name. -/
  | name
  /-- The original class name (`Segment::Local`). -/
  | localName
  /-- A hash of the file name. -/
  | hash
deriving DecidableEq, Repr

/-- A CSS modules class name pattern. -/
structure Pattern where
  segments : List Segment
deriving DecidableEq, Repr

/-- The `Default` pattern: `[hash]_[local]`. -/
def Pattern.default : Pattern :=
  ⟨[Segment.hash, Segment.literal "_", Segment.localName]⟩

/-- Dropping a prefix never lengthens a list. -/
theorem lenDropWhileLe {α : Type} (p : α → Bool) : (l : List α) → (l.dropWhile p).length ≤ l.length
  | [] => Nat.le_refl 0
  | a :: l => by
    simp only [List.dropWhile]
    split
    · exact Nat.le_trans (lenDropWhileLe p l) (Nat.le_succ _)
    · exact Nat.le_refl _

/-- Loop body of `Pattern::parse`, over the remaining characters.  A `[`
opens a bracketed token ended by the next `]` (so the token is the `[`,
the characters of the tail before its first `]`, and that `]`), matched
case-sensitively against `[name]`/`[local]`/`[hash]`; anything else
there is an error (`none`), as is a missing `]`.  Outside brackets, the
maximal run up to the next `[` becomes one literal segment. -/
def parseSegs : List Char → Option (List Segment)
  | [] => some []
  | ch :: rest =>
    if ch = '[' then
      if (rest.dropWhile (fun c => ¬ c = ']')).isEmpty then none
      else
        let afterBracket := (rest.dropWhile (fun c => ¬ c = ']')).tail
        let token := ch :: (rest.takeWhile (fun c => ¬ c = ']') ++ [']'])
        let seg : Option Segment :=
          if token = "[name]".toList then some Segment.name
          else if token = "[local]".toList then some Segment.localName
          else if token = "[hash]".toList then some Segment.hash
          else none
        match seg with
        | none => none
        | some seg => (parseSegs afterBracket).map (fun segs => seg :: segs)
    else
      let lit := ch :: rest.takeWhile (fun c => ¬ c = '[')
      (parseSegs (rest.dropWhile (fun c => ¬ c = '['))).map
        (fun segs => Segment.literal (String.mk lit) :: segs)
termination_by l => l.length
decreasing_by
  · have h1 : (rest.dropWhile (fun c => ¬ c = ']')).length ≤ rest.length :=
      lenDropWhileLe _ rest
    have h2 : (rest.dropWhile (fun c => ¬ c = ']')).tail.length =
        (rest.dropWhile (fun c => ¬ c = ']')).length - 1 := List.length_tail _
    simp only [List.length_cons]
    omega
  · have h1 : (rest.dropWhile (fun c => ¬ c = '[')).length ≤ rest.length :=
      lenDropWhileLe _ rest
    simp only [List.length_cons]
    omega

/-- `Pattern::parse` (`Result<Self, ()>` modelled as `Option`). -/
def Pattern.parse (input : String) : Option Pattern :=
  (parseSegs input.toList).map Pattern.mk

/-- One step of `Pattern::write` against the accumulating string sink
of `write_to_string`: `Literal` emits its text verbatim, `Local` the
caller-supplied original identifier, `Hash` the per-source hash; the
`Segment::Name` branch is the source's `todo!()`, modelled as a panic
(`none`). -/
def writeSegment (hash localName acc : String) : Segment → Option String
  | Segment.literal s => some (acc ++ s)
  | Segment.localName => some (acc ++ localName)
  | Segment.hash => some (acc ++ hash)
  | Segment.name => none

/-- `Pattern::write`, specialised to the accumulating string sink of
`write_to_string`: emits each segment in order. -/
def Pattern.write (p : Pattern) (hash localName : String) : Option String :=
  p.segments.foldlM (writeSegment hash localName) ""

/-! ### Scoping engine (`css_modules.rs::CssModule`)

`CssModuleExports` is a `HashMap<String, CssModuleExport>`; it is
modelled as an association list with unique keys (the operations below
preserve key uniqueness, and `HashMap` keys are unique by construction).
`Entry::or_insert_with` appends a fresh entry, `get_mut` updates the
entry in place. -/

/-- A referenced name within a CSS module (`CssModuleReference`).
`Local`/`Global` are Lean keywords-adjacent, hence the trailing
underscore / renaming. -/
inductive CssModuleReference where
  /-- A local reference (the local, compiled name). -/
  | local_ (name : String)
  /-- A global reference. -/
  | global (name : String)
  /-- A reference to an export in a different file. -/
  | dependency (name : String) (specifier : String)
deriving DecidableEq, Repr

/-- An exported value from a CSS module (`CssModuleExport`). -/
structure CssModuleExport where
  name : String
  composes : List CssModuleReference
  is_referenced : Bool
deriving DecidableEq, Repr

/-- A map of exported names to values (`CssModuleExports`). -/
abbrev CssModuleExports := List (String × CssModuleExport)

/-- `HashMap` lookup on the association-list model. -/
def findExport (exports : CssModuleExports) (key : String) : Option CssModuleExport :=
  match exports with
  | [] => none
  | p :: rest => if p.1 = key then some p.2 else findExport rest key

/-- `HashMap::get_mut`-style in-place update of the entry at `key`. -/
def updateExport (exports : CssModuleExports) (key : String)
    (f : CssModuleExport → CssModuleExport) : CssModuleExports :=
  exports.map (fun p => if p.1 = key then (p.1, f p.2) else p)

/-- Configuration for CSS modules (`Config`). -/
structure Config where
  pattern : Pattern
deriving DecidableEq, Repr

/-- The transient per-print-pass scoping state (`CssModule`). -/
structure CssModule where
  config : Config
  hash : String
  exports : CssModuleExports
deriving DecidableEq, Repr

/-- `CssModule::add_local`: insert a fresh entry unless the exported
name is already present; the compiled name comes from the pattern.  A
`none` result models the panic of the `todo!()` branch reachable through
`write_to_string(..).unwrap()` when the pattern contains `[name]`. -/
def CssModule.add_local (cm : CssModule) (exported localName : String) :
    Option CssModuleExports :=
  match findExport cm.exports exported with
  | some _ => some cm.exports
  | none =>
      (cm.config.pattern.write cm.hash localName).map
        (fun compiled => cm.exports ++ [(exported, ⟨compiled, [], false⟩)])

/-- `CssModule::reference`: mark an existing entry referenced, or insert
a fresh, already-referenced entry whose compiled name is derived exactly
as in `add_local`. -/
def CssModule.reference (cm : CssModule) (name : String) :
    Option CssModuleExports :=
  match findExport cm.exports name with
  | some _ =>
      some (updateExport cm.exports name (fun e => { e with is_referenced := true }))
  | none =>
      (cm.config.pattern.write cm.hash name).map
        (fun compiled => cm.exports ++ [(name, ⟨compiled, [], true⟩)])

/-! ### `composes` handling -/

/-- A selector component; the source only distinguishes
`Component::Class` from every other component kind, which the `other`
constructor collapses (carrying a description of the component). -/
inductive Component where
  /-- `Component::Class` (`class` is a Lean keyword). -/
  | cls (name : String)
  /-- Any other selector component (id, type, combinator, …). -/
  | other (descr : String)
deriving DecidableEq, Repr

/-- A complex selector: its components in match order.  `len() == 1`
with a single `Class` component is the only accepted shape. -/
abbrev Selector := List Component

/-- `ComposesFrom`: where a composed name comes from. -/
inductive ComposesFrom where
  | global
  | file (f : String)
deriving DecidableEq, Repr

/-- The `composes` property value (`Composes`): the composed names and
the optional source (`from` is a Lean keyword). -/
structure Composes where
  names : List String
  from' : Option ComposesFrom
deriving DecidableEq, Repr

/-- The only printer error kind exercised by the scoping engine. -/
inductive PrinterErrorKind where
  | invalidComposesSelector
deriving DecidableEq, Repr

/-- Build the `CssModuleReference` for one composed name: `Local`
(pattern-compiled; `none` models the `[name]` panic) when no source is
given, `Global` when marked global, `Dependency` for another file. -/
def buildReference (config : Config) (hash : String) (from' : Option ComposesFrom)
    (name : String) : Option CssModuleReference :=
  match from' with
  | none => (config.pattern.write hash name).map CssModuleReference.local_
  | some ComposesFrom.global => some (CssModuleReference.global name)
  | some (ComposesFrom.file f) => some (CssModuleReference.dependency name f)

/-- Process one composed name for the class `classId`: build the
reference, look the class up (`get_mut(..).unwrap()`; a missing entry is
the modelled panic `none`), and append the reference unless an equal one
is already in the `composes` list. -/
def composeName (config : Config) (hash : String) (from' : Option ComposesFrom)
    (classId name : String) (exports : CssModuleExports) : Option CssModuleExports :=
  (buildReference config hash from' name).bind fun reference =>
    (findExport exports classId).map fun e =>
      if e.composes.contains reference then exports
      else updateExport exports classId
        (fun e => { e with composes := e.composes ++ [reference] })

/-- Process all composed names for one class, in order. -/
def composeNames (config : Config) (hash : String) (from' : Option ComposesFrom)
    (classId : String) : List String → CssModuleExports → Option CssModuleExports
  | [], exports => some exports
  | n :: rest, exports =>
    (composeName config hash from' classId n exports).bind
      (fun exports => composeNames config hash from' classId rest exports)

/-- The `sel.len() == 1` plus `Component::Class` test of
`handle_composes`: the class name when the selector is a single simple
class selector, `none` for every other shape. -/
def asSingleClass : Selector → Option String
  | [Component.cls id] => some id
  | _ => none

/-- Whether a selector is a single simple class selector. -/
def isSingleClass (sel : Selector) : Bool := (asSingleClass sel).isSome

/-- The selector loop of `handle_composes`: a selector that is a single
class component gets all composed names applied and the loop continues;
any other selector ends the call with `InvalidComposesSelector`,
keeping the mutations committed so far. -/
def handleLoop (config : Config) (hash : String) (comp : Composes) :
    List Selector → CssModuleExports →
    Option (CssModuleExports × Except PrinterErrorKind Unit)
  | [], exports => some (exports, Except.ok ())
  | sel :: rest, exports =>
    match asSingleClass sel with
    | some id =>
      (composeNames config hash comp.from' id comp.names exports).bind
        (fun exports => handleLoop config hash comp rest exports)
    | none => some (exports, Except.error PrinterErrorKind.invalidComposesSelector)

/-- `CssModule::handle_composes`.  The returned exports are the final
state of the `&mut` export table; `none` models a panic. -/
def CssModule.handle_composes (cm : CssModule) (selectors : List Selector)
    (comp : Composes) : Option (CssModuleExports × Except PrinterErrorKind Unit) :=
  handleLoop cm.config cm.hash comp selectors cm.exports

/-! ### Style-sheet orchestrator (`stylesheet.rs`) -/

/-- Modelled from the spec: the per-rule serializer (printer front-end)
is an external collaborator; printing "walks the full rule tree exactly
once", emits literal fragments into the sink, and drives the scoping
engine (declared names, bare references, `composes` declarations) and
the dashed-ident reference map.  A rule is modelled by the sequence of
those observable actions. -/
inductive RuleEvent where
  /-- Emit a literal fragment of serialized CSS. -/
  | emit (text : String)
  /-- A locally declared name (drives `CssModule::add_local`). -/
  | addLocal (exported localName : String)
  /-- A bare reference to a name (drives `CssModule::reference`). -/
  | refName (name : String)
  /-- A dashed-identifier lookup, recording an entry in the references
  map. -/
  | dashedRef (placeholder : String) (reference : CssModuleReference)
  /-- A `composes` declaration (drives `CssModule::handle_composes`). -/
  | composes (selectors : List Selector) (comp : Composes)
deriving DecidableEq, Repr

/-- The top-level rules of a style sheet (`CssRuleList`). -/
abbrev CssRuleList := List RuleEvent

/-- The dashed-ident references map (`CssModuleReferences`). -/
abbrev CssModuleReferences := List (String × CssModuleReference)

/-- The parser configuration fields read by `stylesheet.rs`
(`ParserOptions`). -/
structure ParserOptions where
  filename : String
  css_modules : Option Config
  error_recovery : Bool
deriving DecidableEq, Repr

/-- A CSS style sheet (`StyleSheet`). -/
structure StyleSheet where
  rules : CssRuleList
  sources : List String
  source_map_urls : List (Option String)
  options : ParserOptions
deriving DecidableEq, Repr

/-- The result of `to_css` (`ToCssResult`).  Dependencies are a
pass-through side channel of the external printer; with dependency
analysis not requested they stay `none`. -/
structure ToCssResult where
  code : String
  exports : Option CssModuleExports
  references : Option CssModuleReferences
  dependencies : Option (List String)
deriving DecidableEq, Repr

/-- Run the print pass with a scoping engine: serialize the rules while
threading the export table and the references map through the module
events.  A `none` is a panic inside the scoping engine; an
`Except.error` is a printer error propagated by `?` out of
`rules.to_css`. -/
def runModuleEvents (config : Config) (hashStr : String) :
    CssRuleList → CssModuleExports → CssModuleReferences →
    Option (Except PrinterErrorKind (String × CssModuleExports × CssModuleReferences))
  | [], exports, refs => some (Except.ok ("", exports, refs))
  | ev :: rest, exports, refs =>
    match ev with
    | RuleEvent.emit t =>
      (runModuleEvents config hashStr rest exports refs).map
        (fun res => res.map (fun out => (t ++ out.1, out.2)))
    | RuleEvent.addLocal exported localName =>
      match CssModule.add_local ⟨config, hashStr, exports⟩ exported localName with
      | none => none
      | some exports => runModuleEvents config hashStr rest exports refs
    | RuleEvent.refName n =>
      match CssModule.reference ⟨config, hashStr, exports⟩ n with
      | none => none
      | some exports => runModuleEvents config hashStr rest exports refs
    | RuleEvent.dashedRef placeholder reference =>
      runModuleEvents config hashStr rest exports (refs ++ [(placeholder, reference)])
    | RuleEvent.composes sels comp =>
      match CssModule.handle_composes ⟨config, hashStr, exports⟩ sels comp with
      | none => none
      | some (_, Except.error e) => some (Except.error e)
      | some (exports, Except.ok _) => runModuleEvents config hashStr rest exports refs

/-- The print pass without a scoping engine: module events are inert and
only emitted fragments reach the sink. -/
def renderPlain : CssRuleList → String
  | [] => ""
  | RuleEvent.emit t :: rest => t ++ renderPlain rest
  | _ :: rest => renderPlain rest

/-- `StyleSheet::to_css` (`stylesheet.rs` lines 205–241).  When CSS
modules are configured, a fresh scoping engine is built (its hash
derived from the sheet's primary source identity, per the spec) and the
result carries `Some` exports and `Some` references; otherwise both are
`None`.  A trailing newline is always appended.  The outer `Option`
models a panic inside the pass. -/
def StyleSheet.to_css (s : StyleSheet) :
    Option (Except PrinterErrorKind ToCssResult) :=
  match s.options.css_modules with
  | some config =>
    match runModuleEvents config (hashString (s.sources.headD "")) s.rules [] [] with
    | none => none
    | some (Except.error e) => some (Except.error e)
    | some (Except.ok out) =>
        some (Except.ok
          { code := out.1 ++ "\n"
            exports := some out.2.1
            references := some out.2.2
            dependencies := none })
  | none =>
      some (Except.ok
        { code := renderPlain s.rules ++ "\n"
          exports := none
          references := none
          dependencies := none })

/-- `StyleSheet::new` (`stylesheet.rs` lines 107–115): the caller's
sources and rules, and an *empty* `source_map_urls` list. -/
def StyleSheet.new (sources : List String) (rules : CssRuleList)
    (options : ParserOptions) : StyleSheet :=
  { sources := sources
    source_map_urls := []
    rules := rules
    options := options }

/-- A rule-level parse error (opaque here). -/
abbrev ParserError := String

/-- The rule loop of `StyleSheet::parse`: each rule either parsed or
errored; with `error_recovery` an error is recorded as a warning and the
rule skipped, otherwise the first error aborts the parse. -/
def collectRules (recovery : Bool) :
    List (Except ParserError RuleEvent) → Except ParserError CssRuleList
  | [] => Except.ok []
  | Except.ok rule :: rest => (collectRules recovery rest).map (fun rs => rule :: rs)
  | Except.error e :: rest =>
      if recovery then collectRules recovery rest else Except.error e

/-- `StyleSheet::parse` (`stylesheet.rs` lines 117–148).  Modelled from
the spec where the external tokenizer is concerned: the parser
front-end delivers the per-rule parse outcomes and the optional inline
source-map URL of the single parsed source.  On success the sheet
captures exactly one filename and one source-map URL slot. -/
def StyleSheet.parse (ruleResults : List (Except ParserError RuleEvent))
    (sourceMapUrl : Option String) (options : ParserOptions) :
    Except ParserError StyleSheet :=
  (collectRules options.error_recovery ruleResults).map
    (fun rules =>
      { sources := [options.filename]
        source_map_urls := [sourceMapUrl]
        rules := rules
        options := options })

/-! ### Derived definitions used by the claim statements -/

/-- Number of entries stored under a key. -/
def keyCount (e : CssModuleExports) (k : String) : Nat :=
  e.countP (fun p => p.1 = k)

/-- The text a single segment contributes to a compiled name (total
companion of `writeSegment`, meaningful for `Name`-free patterns). -/
def segmentOut (hash localName : String) : Segment → String
  | Segment.literal s => s
  | Segment.localName => localName
  | Segment.hash => hash
  | Segment.name => ""

/-- Concatenation of the per-segment outputs, in order. -/
def concatOuts (hash localName : String) : List Segment → String
  | [] => ""
  | seg :: rest => segmentOut hash localName seg ++ concatOuts hash localName rest

/-- An ASCII letter, `_`, or a non-ASCII code point: the "ident-start
code points" of CSS Syntax level 3, i.e. the characters that may begin
a CSS identifier unconditionally (modelled from the spec's phrase
"valid CSS identifier start character"). -/
def isCssIdentStartChar (c : Char) : Bool :=
  c.isAlpha || c = '_' || 0x80 ≤ c.toNat

/-- Effect of the valid single-class selectors of a prefix of the
selector list: exactly the mutations `handle_composes` commits before
hitting an invalid selector. -/
def runValidPrefix (config : Config) (hash : String) (comp : Composes) :
    List Selector → CssModuleExports → Option CssModuleExports
  | [], exports => some exports
  | sel :: rest, exports =>
    match asSingleClass sel with
    | some id =>
        (composeNames config hash comp.from' id comp.names exports).bind
          (runValidPrefix config hash comp rest)
    | none => some exports

/-- Every export's `composes` list is duplicate-free. -/
def composesNodup (e : CssModuleExports) : Prop :=
  ∀ p ∈ e, p.2.composes.Nodup

/-- The reference `ref` is recorded in the `composes` list of the entry
stored under `id`. -/
def refMem (e : CssModuleExports) (id : String) (ref : CssModuleReference) : Prop :=
  ∃ exp, findExport e id = some exp ∧ ref ∈ exp.composes

/-- Whether a rule event is a dashed-identifier lookup. -/
def isDashedEvent : RuleEvent → Bool
  | RuleEvent.dashedRef _ _ => true
  | _ => false

/-! ### General theorems about the embedding -/

/-- Official SipHash-2-4 test vector (empty message, key bytes
`00 01 … 0f`): validates the generic round structure. -/
theorem sipHash24_empty_vector :
    sipHash 2 4 0x0706050403020100 0x0f0e0d0c0b0a0908 [] = 0x726fdb47dd0e0e31 := by
  decide

theorem findExport_append_of_none {e : CssModuleExports} {k : String}
    (l : CssModuleExports) (h : findExport e k = none) :
    findExport (e ++ l) k = findExport l k := by
  induction e with
  | nil => simp [findExport]
  | cons p rest ih =>
    by_cases hp : p.1 = k
    · simp [findExport, hp] at h
    · simp only [List.cons_append, findExport, if_neg hp] at h ⊢
      exact ih h

theorem findExport_eq_none_iff {e : CssModuleExports} {k : String} :
    findExport e k = none ↔ k ∉ e.map Prod.fst := by
  induction e with
  | nil => simp [findExport]
  | cons p rest ih =>
    by_cases hp : p.1 = k
    · simp [findExport, hp]
    · simp only [findExport, if_neg hp, List.map_cons, List.mem_cons, ih]
      constructor
      · intro h hk
        rcases hk with hk | hk
        · exact hp hk.symm
        · exact h hk
      · intro h hk
        exact h (Or.inr hk)

theorem keyCount_eq_zero_of_none {e : CssModuleExports} {k : String}
    (h : findExport e k = none) : keyCount e k = 0 := by
  rw [findExport_eq_none_iff] at h
  unfold keyCount
  rw [List.countP_eq_zero]
  intro p hp
  simp only [decide_eq_true_eq]
  intro hpk
  exact h (List.mem_map.mpr ⟨p, hp, hpk⟩)

theorem keyCount_pos_of_some {e : CssModuleExports} {k : String} {v : CssModuleExport}
    (h : findExport e k = some v) : 1 ≤ keyCount e k := by
  induction e with
  | nil => simp [findExport] at h
  | cons p rest ih =>
    by_cases hp : p.1 = k
    · simp [keyCount, List.countP_cons, hp]
    · simp only [findExport, if_neg hp] at h
      have := ih h
      simp only [keyCount, List.countP_cons] at *
      omega

theorem keyCount_le_one_of_nodup {e : CssModuleExports} {k : String}
    (h : (e.map Prod.fst).Nodup) : keyCount e k ≤ 1 := by
  induction e with
  | nil => simp [keyCount]
  | cons p rest ih =>
    simp only [List.map_cons, List.nodup_cons] at h
    by_cases hp : p.1 = k
    · have hnone : findExport rest k = none :=
        findExport_eq_none_iff.mpr (by rw [← hp]; exact h.1)
      have := keyCount_eq_zero_of_none hnone
      simp only [keyCount, List.countP_cons] at *
      simp [hp, this]
    · have := ih h.2
      simp only [keyCount, List.countP_cons] at *
      simp [hp]
      omega

theorem findExport_cons (p : String × CssModuleExport) (rest : CssModuleExports)
    (k : String) :
    findExport (p :: rest) k = if p.1 = k then some p.2 else findExport rest k := rfl

theorem updateExport_cons (p : String × CssModuleExport) (rest : CssModuleExports)
    (k : String) (f : CssModuleExport → CssModuleExport) :
    updateExport (p :: rest) k f =
      (if p.1 = k then (p.1, f p.2) else p) :: updateExport rest k f := rfl

theorem findExport_update_self {e : CssModuleExports} {k : String}
    {f : CssModuleExport → CssModuleExport} {v : CssModuleExport}
    (h : findExport e k = some v) :
    findExport (updateExport e k f) k = some (f v) := by
  induction e with
  | nil => simp [findExport] at h
  | cons p rest ih =>
    rw [findExport_cons] at h
    rw [updateExport_cons]
    by_cases hp : p.1 = k
    · rw [if_pos hp] at h
      injection h with h
      subst h
      rw [if_pos hp, findExport_cons, if_pos hp]
    · rw [if_neg hp] at h
      rw [if_neg hp, findExport_cons, if_neg hp]
      exact ih h

theorem findExport_update_ne {e : CssModuleExports} {k k' : String}
    {f : CssModuleExport → CssModuleExport} (h : ¬ k' = k) :
    findExport (updateExport e k f) k' = findExport e k' := by
  induction e with
  | nil => rfl
  | cons p rest ih =>
    rw [updateExport_cons, findExport_cons, findExport_cons]
    by_cases hp : p.1 = k
    · have hne : ¬ p.1 = k' := by rw [hp]; intro hc; exact h hc.symm
      rw [if_pos hp]
      show (if p.1 = k' then some (f p.2) else findExport (updateExport rest k f) k') = _
      rw [if_neg hne, if_neg hne, ih]
    · rw [if_neg hp]
      by_cases hp' : p.1 = k'
      · rw [if_pos hp', if_pos hp']
      · rw [if_neg hp', if_neg hp', ih]

theorem updateExport_of_none {e : CssModuleExports} {k : String}
    {f : CssModuleExport → CssModuleExport} (h : findExport e k = none) :
    updateExport e k f = e := by
  induction e with
  | nil => rfl
  | cons p rest ih =>
    rw [findExport_cons] at h
    by_cases hp : p.1 = k
    · rw [if_pos hp] at h
      exact absurd h (by simp)
    · rw [if_neg hp] at h
      rw [updateExport_cons, if_neg hp, ih h]

theorem findExport_update_isSome {e : CssModuleExports} {k k' : String}
    {f : CssModuleExport → CssModuleExport} :
    (findExport (updateExport e k f) k').isSome = (findExport e k').isSome := by
  by_cases h : k' = k
  · subst h
    cases hv : findExport e k' with
    | none => rw [updateExport_of_none hv, hv]
    | some v => rw [findExport_update_self hv]; rfl
  · rw [findExport_update_ne h]

/-! ### Claim C5 -/

/-- C5: `add_local` is idempotent and first-declaration-wins: when the
exported name is already present the call returns the export table
completely unchanged (whatever the existing entry's fields are), and
after a first `add_local` a second call with the same arguments returns
the table unchanged, which then holds exactly one entry for the name. -/
theorem c5_thm (cm : CssModule) (exported localName : String)
    (hkeys : (cm.exports.map Prod.fst).Nodup) :
    (∀ e, findExport cm.exports exported = some e →
        cm.add_local exported localName = some cm.exports) ∧
    (∀ E1, cm.add_local exported localName = some E1 →
        CssModule.add_local ⟨cm.config, cm.hash, E1⟩ exported localName = some E1 ∧
        keyCount E1 exported = 1) := by
  constructor
  · intro e he
    unfold CssModule.add_local
    rw [he]
  · intro E1 h1
    unfold CssModule.add_local at h1 ⊢
    cases hfind : findExport cm.exports exported with
    | some e =>
      rw [hfind] at h1
      have hE1 : E1 = cm.exports := by
        injection h1 with h1
        exact h1.symm
      subst hE1
      rw [hfind]
      exact ⟨rfl, Nat.le_antisymm (keyCount_le_one_of_nodup hkeys)
        (keyCount_pos_of_some hfind)⟩
    | none =>
      rw [hfind] at h1
      cases hw : cm.config.pattern.write cm.hash localName with
      | none => rw [hw] at h1; simp at h1
      | some compiled =>
        rw [hw] at h1
        simp only [Option.map_some] at h1
        injection h1 with h1
        subst h1
        have hself : findExport (cm.exports ++ [(exported, ⟨compiled, [], false⟩)]) exported =
            some ⟨compiled, [], false⟩ := by
          rw [findExport_append_of_none _ hfind]
          simp [findExport]
        refine ⟨?_, ?_⟩
        · rw [hself]
        · unfold keyCount
          rw [List.countP_append]
          have h0 : keyCount cm.exports exported = 0 := keyCount_eq_zero_of_none hfind
          unfold keyCount at h0
          rw [h0]
          simp [List.countP_cons]

/-- C5 witness. -/
theorem c5_witness :
    CssModule.add_local ⟨⟨Pattern.default⟩, "HH", [("foo", ⟨"HH_foo", [], false⟩)]⟩
        "foo" "foo" = some [("foo", ⟨"HH_foo", [], false⟩)] ∧
    keyCount [("foo", ⟨"HH_foo", [], false⟩)] "foo" = 1 :=
  (c5_thm ⟨⟨Pattern.default⟩, "HH", []⟩ "foo" "foo" (by decide)).2
    [("foo", ⟨"HH_foo", [], false⟩)] (by decide)

/-! ### Claim C4 -/

/-- C4: `reference` on an absent name inserts exactly one new entry,
already marked `is_referenced`, with the compiled name derived from the
pattern exactly as `add_local` derives it; on a present name it only
sets the `is_referenced` flag of that entry. -/
theorem c4_thm (cm : CssModule) (name : String) :
    (findExport cm.exports name = none →
      ∀ compiled, cm.config.pattern.write cm.hash name = some compiled →
        cm.reference name = some (cm.exports ++ [(name, ⟨compiled, [], true⟩)]) ∧
        keyCount (cm.exports ++ [(name, ⟨compiled, [], true⟩)]) name = 1 ∧
        cm.add_local name name =
          some (cm.exports ++ [(name, ⟨compiled, [], false⟩)])) ∧
    (∀ e, findExport cm.exports name = some e →
      cm.reference name =
        some (updateExport cm.exports name (fun x => { x with is_referenced := true }))) := by
  constructor
  · intro hnone compiled hw
    refine ⟨?_, ?_, ?_⟩
    · unfold CssModule.reference
      rw [hnone, hw]
      rfl
    · unfold keyCount
      rw [List.countP_append]
      have h0 : keyCount cm.exports name = 0 := keyCount_eq_zero_of_none hnone
      unfold keyCount at h0
      rw [h0]
      simp [List.countP_cons]
    · unfold CssModule.add_local
      rw [hnone, hw]
      rfl
  · intro e he
    unfold CssModule.reference
    rw [he]

/-- C4 witness (the reference-before-declaration scenario). -/
theorem c4_witness :
    CssModule.reference ⟨⟨Pattern.default⟩, "HH", []⟩ "bar" =
        some [("bar", ⟨"HH_bar", [], true⟩)] ∧
    keyCount [("bar", ⟨"HH_bar", [], true⟩)] "bar" = 1 ∧
    CssModule.add_local ⟨⟨Pattern.default⟩, "HH", []⟩ "bar" "bar" =
        some [("bar", ⟨"HH_bar", [], false⟩)] :=
  (c4_thm ⟨⟨Pattern.default⟩, "HH", []⟩ "bar").1 (by decide) "HH_bar" (by decide)

/-! ### Claim C3 -/

theorem foldlM_write_total (hash localName : String) (segs : List Segment) :
    Segment.name ∉ segs → ∀ acc : String,
      List.foldlM (writeSegment hash localName) acc segs =
        some (acc ++ concatOuts hash localName segs) := by
  induction segs with
  | nil =>
    intro _ acc
    simp [concatOuts]
  | cons seg rest ih =>
    intro hn acc
    have hseg : seg ≠ Segment.name := fun h => hn (h ▸ List.mem_cons_self _ _)
    have hrest : Segment.name ∉ rest := fun h => hn (List.mem_cons_of_mem _ h)
    rw [List.foldlM_cons]
    cases seg with
    | literal s =>
      simp [writeSegment, concatOuts, segmentOut, ih hrest, String.append_assoc]
    | localName =>
      simp [writeSegment, concatOuts, segmentOut, ih hrest, String.append_assoc]
    | hash =>
      simp [writeSegment, concatOuts, segmentOut, ih hrest, String.append_assoc]
    | name => exact absurd rfl hseg

/-- C3 counterexample: `[name]` parses into a pattern, but `write` on a
pattern containing the `Name` segment hits the `todo!()` branch and
fails (panics) instead of completing: the claim's "write completes
without failure for every pattern including those containing `[name]`"
is false on the code. -/
theorem c3_counterexample :
    Pattern.parse "x[name]" = some ⟨[Segment.literal "x", Segment.name]⟩ ∧
    Pattern.write ⟨[Segment.literal "x", Segment.name]⟩ "abc" "foo" = none := by
  constructor
  · simp [Pattern.parse, parseSegs, List.dropWhile, List.takeWhile]
  · decide

/-- C3 (amended): for every pattern containing no `Name` segment,
`write` succeeds and emits each segment in order — `Literal` text
verbatim, `Local` the caller-supplied identifier, `Hash` the
caller-supplied hash; a pattern containing `[name]` instead panics in
the unimplemented branch. -/
theorem c3_thm (p : Pattern) (hash localName : String)
    (h : Segment.name ∉ p.segments) :
    p.write hash localName = some (concatOuts hash localName p.segments) := by
  unfold Pattern.write
  rw [foldlM_write_total hash localName p.segments h ""]
  simp

/-- C3 witness. -/
theorem c3_witness :
    Pattern.default.write "abc123" "foo" =
        some (concatOuts "abc123" "foo" Pattern.default.segments) ∧
    concatOuts "abc123" "foo" Pattern.default.segments = "abc123_foo" :=
  ⟨c3_thm Pattern.default "abc123" "foo" (by decide), by decide⟩

/-! ### Claim C7 -/

theorem bitsVal_lt : ∀ l : List Bool, bitsVal l < 2 ^ l.length
  | [] => Nat.lt_succ_self 0
  | b :: rest => by
    have ih := bitsVal_lt rest
    have hc : (cond b 1 0 : Nat) ≤ 1 := by cases b <;> simp
    simp only [bitsVal, List.length_cons, pow_succ]
    have h1 : (cond b 1 0 : Nat) * 2 ^ rest.length ≤ 2 ^ rest.length :=
      Nat.mul_le_mul_right _ hc |>.trans_eq (Nat.one_mul _)
    omega

theorem bitsVal_lt_64 (l : List Bool) (hlen : l.length = 6) : bitsVal l < 64 := by
  have := bitsVal_lt l
  rw [hlen] at this
  exact this

theorem sixGroups_cons (b : Bool) (rest : List Bool) :
    ∃ g t, g < 64 ∧ sixGroups (b :: rest) = g :: t := by
  rcases rest with _ | ⟨b1, _ | ⟨b2, _ | ⟨b3, _ | ⟨b4, _ | ⟨b5, rest⟩⟩⟩⟩⟩
  · exact ⟨_, _, bitsVal_lt_64 ([b] ++ List.replicate 5 false) (by simp), rfl⟩
  · exact ⟨_, _, bitsVal_lt_64 ([b, b1] ++ List.replicate 4 false) (by simp), rfl⟩
  · exact ⟨_, _, bitsVal_lt_64 ([b, b1, b2] ++ List.replicate 3 false) (by simp), rfl⟩
  · exact ⟨_, _, bitsVal_lt_64 ([b, b1, b2, b3] ++ List.replicate 2 false) (by simp), rfl⟩
  · exact ⟨_, _, bitsVal_lt_64 ([b, b1, b2, b3, b4] ++ List.replicate 1 false) (by simp),
      rfl⟩
  · exact ⟨_, _, bitsVal_lt_64 [b, b1, b2, b3, b4, b5] (by simp), rfl⟩

theorem encodeBytes_shape (n : Nat) :
    ∃ g t, g < 64 ∧ encodeBytes (u32LeBytes n) = symbolOf g :: t := by
  have hbits : ∃ x xs, (u32LeBytes n).flatMap (toBits 8) = x :: xs := by
    have hlen : ((u32LeBytes n).flatMap (toBits 8)).length = 32 := by
      simp [u32LeBytes, toBits]
    cases hb : (u32LeBytes n).flatMap (toBits 8) with
    | nil => rw [hb] at hlen; simp at hlen
    | cons x xs => exact ⟨x, xs, rfl⟩
  obtain ⟨x, xs, hb⟩ := hbits
  obtain ⟨g, t, hg, hsix⟩ := sixGroups_cons x xs
  refine ⟨g, t.map symbolOf, hg, ?_⟩
  rw [encodeBytes, hb, hsix, List.map_cons]

/-- The alphabet symbols are ASCII letters, digits, `_` or `-`; a
non-digit symbol is a letter, `_` or `-`; `-` is not an ident-start
code point. -/
theorem symbolOf_cases :
    ∀ i : Fin 64, (symbolOf i.val).isDigit = false →
      ((symbolOf i.val).isAlpha ∨ symbolOf i.val = '_' ∨ symbolOf i.val = '-') := by
  decide

/-- C7 counterexample: for the seed `"s440"` the encoded token starts
with `-`, which is not a CSS ident-start code point (a `-`-led name may
even continue with a digit, as here), so "the returned token's first
character … is always a valid CSS identifier start character" fails. -/
theorem c7_counterexample :
    hashString "s440" = "-1_atq" ∧ isCssIdentStartChar '-' = false := by
  constructor
  · decide
  · decide

/-- C7 (amended): `hash` is deterministic and pure — equal seeds yield
equal tokens — and for every seed the token is nonempty and its first
character is never an ASCII digit: it is an ASCII letter, `_`, or `-`
(the `-` case is what the original claim's "always a valid CSS
identifier start character" overlooked). -/
theorem c7_thm (s : String) :
    hashString s = hashString s ∧
    (hashString s).toList ≠ [] ∧
    ∀ c, (hashString s).toList.head? = some c →
      c.isDigit = false ∧ (c.isAlpha ∨ c = '_' ∨ c = '-') := by
  obtain ⟨g, t, hg, henc⟩ := encodeBytes_shape (defaultHashStr s % 4294967296)
  refine ⟨rfl, ?_⟩
  simp only [hashString]
  rw [henc]
  simp only [List.headD_cons]
  by_cases hd : (symbolOf g).isDigit
  · rw [if_pos hd]
    refine ⟨by simp [String.toList], ?_⟩
    intro c hc
    simp only [String.toList, String.mk, List.head?] at hc
    injection hc with hc
    subst hc
    exact ⟨by decide, Or.inr (Or.inl rfl)⟩
  · rw [if_neg hd]
    refine ⟨by simp [String.toList], ?_⟩
    intro c hc
    simp only [String.toList, String.mk, List.head?] at hc
    injection hc with hc
    subst hc
    have := symbolOf_cases ⟨g, hg⟩ (by simpa using hd)
    exact ⟨by simpa using hd, this⟩

/-- C7 witness. -/
theorem c7_witness :
    hashString "main.css" = hashString "main.css" ∧
    (hashString "main.css").toList ≠ [] ∧
    ('n'.isDigit = false ∧ ('n'.isAlpha ∨ 'n' = '_' ∨ 'n' = '-')) :=
  ⟨(c7_thm "main.css").1, (c7_thm "main.css").2.1,
    (c7_thm "main.css").2.2 'n' (by decide)⟩

/-! ### Dispatch equations for the selector loops -/

theorem handleLoop_nil {config : Config} {hash : String} {comp : Composes} {e : CssModuleExports} :
    handleLoop config hash comp [] e = some (e, Except.ok ()) := rfl

theorem handleLoop_cons_some {config : Config} {hash : String} {comp : Composes} {sel : Selector}
    {rest : List Selector} {e : CssModuleExports} {id : String}
    (hs : asSingleClass sel = some id) :
    handleLoop config hash comp (sel :: rest) e =
      (composeNames config hash comp.from' id comp.names e).bind
        (fun e2 => handleLoop config hash comp rest e2) := by
  conv_lhs => rw [handleLoop]
  rw [hs]

theorem handleLoop_cons_none {config : Config} {hash : String} {comp : Composes} {sel : Selector}
    {rest : List Selector} {e : CssModuleExports} (hs : asSingleClass sel = none) :
    handleLoop config hash comp (sel :: rest) e =
      some (e, Except.error PrinterErrorKind.invalidComposesSelector) := by
  conv_lhs => rw [handleLoop]
  rw [hs]

theorem runValidPrefix_nil {config : Config} {hash : String} {comp : Composes} {e : CssModuleExports} :
    runValidPrefix config hash comp [] e = some e := rfl

theorem runValidPrefix_cons_some {config : Config} {hash : String} {comp : Composes} {sel : Selector}
    {rest : List Selector} {e : CssModuleExports} {id : String}
    (hs : asSingleClass sel = some id) :
    runValidPrefix config hash comp (sel :: rest) e =
      (composeNames config hash comp.from' id comp.names e).bind (runValidPrefix config hash comp rest) := by
  conv_lhs => rw [runValidPrefix]
  rw [hs]

theorem runValidPrefix_cons_none {config : Config} {hash : String} {comp : Composes} {sel : Selector}
    {rest : List Selector} {e : CssModuleExports} (hs : asSingleClass sel = none) :
    runValidPrefix config hash comp (sel :: rest) e = some e := by
  conv_lhs => rw [runValidPrefix]
  rw [hs]

/-! ### Claim C8 -/

theorem takeWhileAppendAll (p : Char → Bool) (t l : List Char)
    (h : ∀ c ∈ t, p c = true) :
    (t ++ l).takeWhile p = t ++ l.takeWhile p := by
  induction t with
  | nil => simp
  | cons a t ih =>
    simp only [List.cons_append, List.takeWhile_cons]
    rw [h a (List.mem_cons_self a t), ih (fun c hc => h c (List.mem_cons_of_mem a hc))]
    simp

theorem dropWhileAppendAll (p : Char → Bool) (t l : List Char)
    (h : ∀ c ∈ t, p c = true) :
    (t ++ l).dropWhile p = l.dropWhile p := by
  induction t with
  | nil => simp
  | cons a t ih =>
    simp only [List.cons_append, List.dropWhile_cons]
    rw [h a (List.mem_cons_self a t)]
    simp only [if_true]
    exact ih (fun c hc => h c (List.mem_cons_of_mem a hc))

theorem noRightBracket (t : List Char) (ht : ']' ∉ t) :
    ∀ c ∈ t, (fun c : Char => decide ¬ c = ']') c = true := by
  intro c hc
  simp only [decide_eq_true_eq]
  intro he
  exact ht (he ▸ hc)

/-- C8: `Pattern::parse` scans left to right: a `[` opens a token ended
by the next `]`, matched case-sensitively against `name`/`local`/`hash`
(each contributing its segment and continuing after the `]`); an
unrecognized or unterminated bracket token is an error with no partial
pattern (the `Option` carries no pattern in that case); a maximal
nonempty run of characters outside brackets becomes one verbatim
`Literal` segment; the empty string parses to the pattern with zero
segments. -/
theorem c8_thm :
    (Pattern.parse "" = some ⟨[]⟩) ∧
    (∀ r : List Char,
      parseSegs ("[name]".toList ++ r) =
          (parseSegs r).map (fun segs => Segment.name :: segs) ∧
      parseSegs ("[local]".toList ++ r) =
          (parseSegs r).map (fun segs => Segment.localName :: segs) ∧
      parseSegs ("[hash]".toList ++ r) =
          (parseSegs r).map (fun segs => Segment.hash :: segs)) ∧
    (∀ t r : List Char, ']' ∉ t →
      ¬ t = "name".toList → ¬ t = "local".toList → ¬ t = "hash".toList →
      parseSegs ('[' :: (t ++ (']' :: r))) = none) ∧
    (∀ t : List Char, ']' ∉ t → parseSegs ('[' :: t) = none) ∧
    (∀ lit r : List Char, ¬ lit = [] → '[' ∉ lit →
      (r = [] ∨ ∃ r2, r = '[' :: r2) →
      parseSegs (lit ++ r) =
        (parseSegs r).map (fun segs => Segment.literal (String.mk lit) :: segs)) := by
  refine ⟨?_, ?_, ?_, ?_, ?_⟩
  · simp [Pattern.parse, parseSegs]
  · intro r
    refine ⟨?_, ?_, ?_⟩ <;>
      simp [parseSegs, List.dropWhile, List.takeWhile]
  · intro t r ht h1 h2 h3
    have hall := noRightBracket t ht
    have hdw : (t ++ (']' :: r)).dropWhile (fun c => ¬ c = ']') = ']' :: r := by
      rw [dropWhileAppendAll _ t _ hall]
      simp [List.dropWhile]
    have htw : (t ++ (']' :: r)).takeWhile (fun c => ¬ c = ']') = t := by
      rw [takeWhileAppendAll _ t _ hall]
      simp [List.takeWhile]
    simp only [decide_not] at hdw htw
    have hn1 : ¬ (t ++ [']'] = "name".toList ++ [']']) := fun hc =>
      h1 (List.append_cancel_right hc)
    have hn2 : ¬ (t ++ [']'] = "local".toList ++ [']']) := fun hc =>
      h2 (List.append_cancel_right hc)
    have hn3 : ¬ (t ++ [']'] = "hash".toList ++ [']']) := fun hc =>
      h3 (List.append_cancel_right hc)
    rw [show ("name".toList ++ [']'] : List Char) = ['n', 'a', 'm', 'e', ']'] from by decide]
      at hn1
    rw [show ("local".toList ++ [']'] : List Char) = ['l', 'o', 'c', 'a', 'l', ']'] from by
      decide] at hn2
    rw [show ("hash".toList ++ [']'] : List Char) = ['h', 'a', 's', 'h', ']'] from by decide]
      at hn3
    simp [parseSegs, hdw, htw, hn1, hn2, hn3]
  · intro t ht
    have hdw : t.dropWhile (fun c => ¬ c = ']') = [] :=
      List.dropWhile_eq_nil_iff.mpr (noRightBracket t ht)
    simp only [decide_not] at hdw
    simp [parseSegs, hdw]
  · intro lit r hne hnb hr
    rcases lit with _ | ⟨c, lt⟩
    · exact absurd rfl hne
    · have hc : ¬ c = '[' := fun h => hnb (h ▸ List.mem_cons_self c lt)
      have hlt : ∀ x ∈ lt, (fun x : Char => decide ¬ x = '[') x = true := by
        intro x hx
        simp only [decide_eq_true_eq]
        intro he
        exact hnb (he ▸ List.mem_cons_of_mem c hx)
      have hrt : r.takeWhile (fun x => ¬ x = '[') = [] := by
        rcases hr with h | ⟨r2, h⟩ <;> subst h <;> simp [List.takeWhile]
      have hrd : r.dropWhile (fun x => ¬ x = '[') = r := by
        rcases hr with h | ⟨r2, h⟩ <;> subst h <;> simp [List.dropWhile]
      have htw : (lt ++ r).takeWhile (fun x => ¬ x = '[') = lt := by
        rw [takeWhileAppendAll _ lt _ hlt, hrt]
        simp
      have hdw : (lt ++ r).dropWhile (fun x => ¬ x = '[') = r := by
        rw [dropWhileAppendAll _ lt _ hlt, hrd]
      simp only [decide_not] at htw hdw
      simp [parseSegs, hc, htw, hdw]

/-- C8 witness. -/
theorem c8_witness :
    (parseSegs ("[local]".toList ++ []) =
        (parseSegs []).map (fun segs => Segment.localName :: segs)) ∧
    (parseSegs ('[' :: ("foo".toList ++ (']' :: []))) = none) ∧
    (parseSegs ('[' :: "x".toList) = none) ∧
    (parseSegs ("ab".toList ++ "[hash]".toList) =
        (parseSegs "[hash]".toList).map
          (fun segs => Segment.literal (String.mk "ab".toList) :: segs)) :=
  ⟨(c8_thm.2.1 []).2.1,
    c8_thm.2.2.1 "foo".toList [] (by decide) (by decide) (by decide) (by decide),
    c8_thm.2.2.2.1 "x".toList (by decide),
    c8_thm.2.2.2.2 "ab".toList "[hash]".toList (by decide) (by decide)
      (Or.inr ⟨"hash]".toList, rfl⟩)⟩

/-! ### Lemmas about `handle_composes` -/

theorem findExport_eq_of_mem_nodup {e : CssModuleExports} {k : String} {v : CssModuleExport}
    (hkeys : (e.map Prod.fst).Nodup) (hm : (k, v) ∈ e) : findExport e k = some v := by
  induction e with
  | nil => simp at hm
  | cons p rest ih =>
    simp only [List.map_cons, List.nodup_cons] at hkeys
    rcases List.mem_cons.mp hm with hm | hm
    · rw [← hm, findExport_cons, if_pos rfl]
    · have hne : ¬ p.1 = k := by
        intro hc
        exact hkeys.1 (hc ▸ List.mem_map.mpr ⟨(k, v), hm, rfl⟩)
      rw [findExport_cons, if_neg hne]
      exact ih hkeys.2 hm

theorem updateExport_keys (e : CssModuleExports) (k : String)
    (f : CssModuleExport → CssModuleExport) :
    (updateExport e k f).map Prod.fst = e.map Prod.fst := by
  induction e with
  | nil => rfl
  | cons p rest ih =>
    rw [updateExport_cons, List.map_cons, List.map_cons, ih]
    by_cases hp : p.1 = k
    · rw [if_pos hp]
    · rw [if_neg hp]

theorem composeName_keys {config : Config} {hash : String} {f : Option ComposesFrom} {id n : String}
    {e e' : CssModuleExports} (h : composeName config hash f id n e = some e') :
    e'.map Prod.fst = e.map Prod.fst := by
  unfold composeName at h
  cases hb : buildReference config hash f n with
  | none => rw [hb] at h; simp at h
  | some ref =>
    rw [hb, Option.some_bind] at h
    cases hf : findExport e id with
    | none => rw [hf] at h; simp at h
    | some exp =>
      rw [hf, Option.map_some'] at h
      injection h with h
      by_cases hc : exp.composes.contains ref
      · rw [if_pos hc] at h
        rw [← h]
      · rw [if_neg hc] at h
        rw [← h, updateExport_keys]

theorem composeName_isSome_preserved {config : Config} {hash : String} {f : Option ComposesFrom}
    {id n : String} {e e' : CssModuleExports} (h : composeName config hash f id n e = some e')
    (k : String) : (findExport e' k).isSome = (findExport e k).isSome := by
  unfold composeName at h
  cases hb : buildReference config hash f n with
  | none => rw [hb] at h; simp at h
  | some ref =>
    rw [hb, Option.some_bind] at h
    cases hf : findExport e id with
    | none => rw [hf] at h; simp at h
    | some exp =>
      rw [hf, Option.map_some'] at h
      injection h with h
      by_cases hc : exp.composes.contains ref
      · rw [if_pos hc] at h
        rw [← h]
      · rw [if_neg hc] at h
        rw [← h]
        exact findExport_update_isSome

theorem composeName_refMem {config : Config} {hash : String} {f : Option ComposesFrom} {id n : String}
    {e e' : CssModuleExports} (h : composeName config hash f id n e = some e')
    {k : String} {r : CssModuleReference} (hm : refMem e k r) : refMem e' k r := by
  unfold composeName at h
  cases hb : buildReference config hash f n with
  | none => rw [hb] at h; simp at h
  | some ref =>
    rw [hb, Option.some_bind] at h
    cases hf : findExport e id with
    | none => rw [hf] at h; simp at h
    | some exp =>
      rw [hf, Option.map_some'] at h
      injection h with h
      by_cases hc : exp.composes.contains ref
      · rw [if_pos hc] at h
        rw [← h]
        exact hm
      · rw [if_neg hc] at h
        subst h
        obtain ⟨exp0, hfind0, hmem0⟩ := hm
        by_cases hk : k = id
        · subst hk
          rw [hfind0] at hf
          injection hf with hf
          subst hf
          exact ⟨_, findExport_update_self hfind0, List.mem_append_left _ hmem0⟩
        · exact ⟨exp0, by rw [findExport_update_ne hk]; exact hfind0, hmem0⟩

theorem composeName_post {config : Config} {hash : String} {f : Option ComposesFrom} {id n : String}
    {e e' : CssModuleExports} {ref : CssModuleReference}
    (h : composeName config hash f id n e = some e')
    (hb : buildReference config hash f n = some ref) : refMem e' id ref := by
  unfold composeName at h
  rw [hb, Option.some_bind] at h
  cases hf : findExport e id with
  | none => rw [hf] at h; simp at h
  | some exp =>
    rw [hf, Option.map_some'] at h
    injection h with h
    by_cases hc : exp.composes.contains ref
    · rw [if_pos hc] at h
      subst h
      exact ⟨exp, hf, by simpa using hc⟩
    · rw [if_neg hc] at h
      subst h
      exact ⟨_, findExport_update_self hf, List.mem_append_right _ (by simp)⟩

theorem composeName_total {config : Config} {hash : String} {f : Option ComposesFrom} {id n : String}
    {e : CssModuleExports} (hb : (buildReference config hash f n).isSome = true)
    (hf : (findExport e id).isSome = true) :
    (composeName config hash f id n e).isSome = true := by
  unfold composeName
  cases hbv : buildReference config hash f n with
  | none => rw [hbv] at hb; simp at hb
  | some ref =>
    rw [Option.some_bind]
    cases hfv : findExport e id with
    | none => rw [hfv] at hf; simp at hf
    | some exp => rw [Option.map_some']; rfl

theorem composeNames_keys {config : Config} {hash : String} {f : Option ComposesFrom} {id : String} :
    ∀ {names : List String} {e e' : CssModuleExports},
      composeNames config hash f id names e = some e' → e'.map Prod.fst = e.map Prod.fst := by
  intro names
  induction names with
  | nil =>
    intro e e' h
    injection h with h
    rw [h]
  | cons n rest ih =>
    intro e e' h
    unfold composeNames at h
    cases hc : composeName config hash f id n e with
    | none => rw [hc] at h; exact absurd h (by simp)
    | some e2 =>
      rw [hc] at h
      rw [ih h, composeName_keys hc]

theorem composeNames_isSome_preserved {config : Config} {hash : String} {f : Option ComposesFrom}
    {id : String} {names : List String} {e e' : CssModuleExports}
    (h : composeNames config hash f id names e = some e') (k : String) :
    (findExport e' k).isSome = (findExport e k).isSome := by
  have h1 := composeNames_keys h
  have hiff : findExport e' k = none ↔ findExport e k = none := by
    rw [findExport_eq_none_iff, findExport_eq_none_iff, h1]
  cases hv : findExport e k with
  | none => rw [hiff.mpr hv]
  | some v =>
    cases hv' : findExport e' k with
    | none => exact Option.noConfusion (hv.symm.trans (hiff.mp hv'))
    | some w => rfl

theorem composeNames_refMem {config : Config} {hash : String} {f : Option ComposesFrom} {id : String} :
    ∀ {names : List String} {e e' : CssModuleExports},
      composeNames config hash f id names e = some e' →
      ∀ {k : String} {r : CssModuleReference}, refMem e k r → refMem e' k r := by
  intro names
  induction names with
  | nil =>
    intro e e' h k r hm
    injection h with h
    rw [← h]
    exact hm
  | cons n rest ih =>
    intro e e' h k r hm
    unfold composeNames at h
    cases hc : composeName config hash f id n e with
    | none => rw [hc] at h; exact absurd h (by simp)
    | some e2 =>
      rw [hc] at h
      exact ih h (composeName_refMem hc hm)

theorem composeNames_post {config : Config} {hash : String} {f : Option ComposesFrom} {id : String} :
    ∀ {names : List String} {e e' : CssModuleExports},
      composeNames config hash f id names e = some e' →
      ∀ n ∈ names, ∀ ref, buildReference config hash f n = some ref → refMem e' id ref := by
  intro names
  induction names with
  | nil =>
    intro e e' _ n hn
    simp at hn
  | cons m rest ih =>
    intro e e' h n hn ref hb
    unfold composeNames at h
    cases hc : composeName config hash f id m e with
    | none => rw [hc] at h; exact absurd h (by simp)
    | some e2 =>
      rw [hc] at h
      rcases List.mem_cons.mp hn with hn | hn
      · subst hn
        exact composeNames_refMem h (composeName_post hc hb)
      · exact ih h n hn ref hb

theorem composeNames_builds {config : Config} {hash : String} {f : Option ComposesFrom} {id : String} :
    ∀ {names : List String} {e e' : CssModuleExports},
      composeNames config hash f id names e = some e' →
      ∀ n ∈ names, (buildReference config hash f n).isSome = true := by
  intro names
  induction names with
  | nil =>
    intro e e' _ n hn
    simp at hn
  | cons m rest ih =>
    intro e e' h n hn
    unfold composeNames at h
    cases hc : composeName config hash f id m e with
    | none => rw [hc] at h; exact absurd h (by simp)
    | some e2 =>
      rw [hc] at h
      rcases List.mem_cons.mp hn with hn | hn
      · subst hn
        unfold composeName at hc
        cases hb : buildReference config hash f n with
        | none => rw [hb] at hc; simp at hc
        | some ref => rfl
      · exact ih h n hn

theorem composeNames_id {config : Config} {hash : String} {f : Option ComposesFrom} {id : String} :
    ∀ {names : List String} {e : CssModuleExports},
      (∀ n ∈ names, ∃ ref, buildReference config hash f n = some ref ∧ refMem e id ref) →
      composeNames config hash f id names e = some e := by
  intro names
  induction names with
  | nil => intro e _; rfl
  | cons m rest ih =>
    intro e hall
    obtain ⟨ref, hb, exp, hfind, hmem⟩ := hall m (List.mem_cons_self m rest)
    unfold composeNames composeName
    rw [hb, Option.some_bind, hfind, Option.map_some',
      if_pos (show exp.composes.contains ref = true by simpa using hmem)]
    exact ih (fun n hn => hall n (List.mem_cons_of_mem m hn))

theorem composeNames_total {config : Config} {hash : String} {f : Option ComposesFrom} {id : String} :
    ∀ {names : List String} {e : CssModuleExports},
      (∀ n ∈ names, (buildReference config hash f n).isSome = true) →
      (findExport e id).isSome = true →
      (composeNames config hash f id names e).isSome = true := by
  intro names
  induction names with
  | nil => intro e _ _; rfl
  | cons m rest ih =>
    intro e hb hf
    unfold composeNames
    cases hc : composeName config hash f id m e with
    | none =>
      have := composeName_total (hb m (List.mem_cons_self m rest)) hf
      rw [hc] at this
      simp at this
    | some e2 =>
      have hf2 : (findExport e2 id).isSome = true := by
        rw [composeName_isSome_preserved hc]
        exact hf
      exact ih (fun n hn => hb n (List.mem_cons_of_mem m hn)) hf2

theorem handleLoop_refMem {config : Config} {hash : String} {comp : Composes} :
    ∀ {sels : List Selector} {e e1 : CssModuleExports}
      {res : Except PrinterErrorKind Unit},
      handleLoop config hash comp sels e = some (e1, res) →
      ∀ {k : String} {r : CssModuleReference}, refMem e k r → refMem e1 k r := by
  intro sels
  induction sels with
  | nil =>
    intro e e1 res h k r hm
    rw [handleLoop_nil] at h
    injection h with h
    injection h with h1 h2
    subst h1
    exact hm
  | cons sel rest ih =>
    intro e e1 res h k r hm
    cases hs : asSingleClass sel with
    | none =>
      rw [handleLoop_cons_none hs] at h
      injection h with h
      injection h with h1 h2
      subst h1
      exact hm
    | some id =>
      rw [handleLoop_cons_some hs] at h
      cases hc : composeNames config hash comp.from' id comp.names e with
      | none => rw [hc] at h; simp at h
      | some e2 =>
        rw [hc, Option.some_bind] at h
        exact ih h (composeNames_refMem hc hm)

theorem handleLoop_isSome_preserved {config : Config} {hash : String} {comp : Composes} :
    ∀ {sels : List Selector} {e e1 : CssModuleExports}
      {res : Except PrinterErrorKind Unit},
      handleLoop config hash comp sels e = some (e1, res) →
      ∀ k : String, (findExport e1 k).isSome = (findExport e k).isSome := by
  intro sels
  induction sels with
  | nil =>
    intro e e1 res h k
    rw [handleLoop_nil] at h
    injection h with h
    injection h with h1 h2
    subst h1
    rfl
  | cons sel rest ih =>
    intro e e1 res h k
    cases hs : asSingleClass sel with
    | none =>
      rw [handleLoop_cons_none hs] at h
      injection h with h
      injection h with h1 h2
      subst h1
      rfl
    | some id =>
      rw [handleLoop_cons_some hs] at h
      cases hc : composeNames config hash comp.from' id comp.names e with
      | none => rw [hc] at h; simp at h
      | some e2 =>
        rw [hc, Option.some_bind] at h
        rw [ih h k, composeNames_isSome_preserved hc k]

theorem handleLoop_all_single {config : Config} {hash : String} {comp : Composes} :
    ∀ {sels : List Selector} {e e1 : CssModuleExports} {u : Unit},
      handleLoop config hash comp sels e = some (e1, Except.ok u) →
      ∀ sel ∈ sels, ∃ id, asSingleClass sel = some id := by
  intro sels
  induction sels with
  | nil =>
    intro e e1 u _ sel hmem
    simp at hmem
  | cons s rest ih =>
    intro e e1 u h sel hmem
    cases hs : asSingleClass s with
    | none =>
      rw [handleLoop_cons_none hs] at h
      injection h with h
      injection h with h1 h2
      exact Except.noConfusion h2
    | some id =>
      rw [handleLoop_cons_some hs] at h
      cases hc : composeNames config hash comp.from' id comp.names e with
      | none => rw [hc] at h; simp at h
      | some e2 =>
        rw [hc, Option.some_bind] at h
        rcases List.mem_cons.mp hmem with hmem | hmem
        · exact ⟨id, hmem ▸ hs⟩
        · exact ih h sel hmem

theorem handleLoop_post {config : Config} {hash : String} {comp : Composes} :
    ∀ {sels : List Selector} {e e1 : CssModuleExports} {u : Unit},
      handleLoop config hash comp sels e = some (e1, Except.ok u) →
      ∀ sel ∈ sels, ∀ id, asSingleClass sel = some id →
        ∀ n ∈ comp.names, ∀ ref, buildReference config hash comp.from' n = some ref →
          refMem e1 id ref := by
  intro sels
  induction sels with
  | nil =>
    intro e e1 u _ sel hmem
    simp at hmem
  | cons s rest ih =>
    intro e e1 u h sel hmem id hid n hn ref hb
    cases hs : asSingleClass s with
    | none =>
      rw [handleLoop_cons_none hs] at h
      injection h with h
      injection h with h1 h2
      exact Except.noConfusion h2
    | some id0 =>
      rw [handleLoop_cons_some hs] at h
      cases hc : composeNames config hash comp.from' id0 comp.names e with
      | none => rw [hc] at h; simp at h
      | some e2 =>
        rw [hc, Option.some_bind] at h
        rcases List.mem_cons.mp hmem with hmem | hmem
        · subst hmem
          rw [hid] at hs
          injection hs with hs
          subst hs
          exact handleLoop_refMem h (composeNames_post hc n hn ref hb)
        · exact ih h sel hmem id hid n hn ref hb

theorem handleLoop_builds {config : Config} {hash : String} {comp : Composes} {sel : Selector}
    {rest : List Selector} {e e1 : CssModuleExports} {u : Unit}
    (h : handleLoop config hash comp (sel :: rest) e = some (e1, Except.ok u)) :
    ∀ n ∈ comp.names, (buildReference config hash comp.from' n).isSome = true := by
  cases hs : asSingleClass sel with
  | none =>
    rw [handleLoop_cons_none hs] at h
    injection h with h
    injection h with h1 h2
    exact Except.noConfusion h2
  | some id =>
    rw [handleLoop_cons_some hs] at h
    cases hc : composeNames config hash comp.from' id comp.names e with
    | none => rw [hc] at h; simp at h
    | some e2 => exact composeNames_builds hc

theorem handleLoop_idem {config : Config} {hash : String} {comp : Composes} :
    ∀ {sels : List Selector} {e e1 : CssModuleExports} {u : Unit},
      handleLoop config hash comp sels e = some (e1, Except.ok u) →
      handleLoop config hash comp sels e1 = some (e1, Except.ok ()) := by
  intro sels
  induction sels with
  | nil =>
    intro e e1 u h
    rw [handleLoop_nil] at h
    injection h with h
    injection h with h1 h2
    subst h1
    rfl
  | cons sel rest ih =>
    intro e e1 u h
    cases hs : asSingleClass sel with
    | none =>
      rw [handleLoop_cons_none hs] at h
      injection h with h
      injection h with h1 h2
      exact Except.noConfusion h2
    | some id =>
      rw [handleLoop_cons_some hs] at h
      cases hc : composeNames config hash comp.from' id comp.names e with
      | none => rw [hc] at h; simp at h
      | some e2 =>
        rw [hc, Option.some_bind] at h
        have hid : composeNames config hash comp.from' id comp.names e1 = some e1 := by
          apply composeNames_id
          intro n hn
          have hb := composeNames_builds hc n hn
          obtain ⟨ref, hbr⟩ := Option.isSome_iff_exists.mp hb
          exact ⟨ref, hbr,
            handleLoop_refMem h (composeNames_post hc n hn ref hbr)⟩
        rw [handleLoop_cons_some hs, hid, Option.some_bind]
        exact ih h

/-! ### Claim C1 -/

theorem handleLoop_invalid {config : Config} {hash : String} {comp : Composes} :
    ∀ {sels : List Selector} {e : CssModuleExports},
      (∃ sel ∈ sels, asSingleClass sel = none) →
      handleLoop config hash comp sels e =
        (runValidPrefix config hash comp (sels.takeWhile isSingleClass) e).map
          (fun e2 => (e2, Except.error PrinterErrorKind.invalidComposesSelector)) := by
  intro sels
  induction sels with
  | nil =>
    intro e hbad
    simp at hbad
  | cons sel rest ih =>
    intro e hbad
    cases hs : asSingleClass sel with
    | none =>
      have hfalse : isSingleClass sel = false := by
        unfold isSingleClass
        rw [hs]
        rfl
      rw [handleLoop_cons_none hs, List.takeWhile_cons, hfalse]
      rfl
    | some id =>
      have htrue : isSingleClass sel = true := by
        unfold isSingleClass
        rw [hs]
        rfl
      have hbad2 : ∃ s ∈ rest, asSingleClass s = none := by
        obtain ⟨s, hmem, hnone⟩ := hbad
        rcases List.mem_cons.mp hmem with hmem | hmem
        · rw [hmem, hs] at hnone
          exact Option.noConfusion hnone
        · exact ⟨s, hmem, hnone⟩
      rw [handleLoop_cons_some hs, List.takeWhile_cons, htrue]
      simp only [if_true]
      rw [runValidPrefix_cons_some hs]
      cases hc : composeNames config hash comp.from' id comp.names e with
      | none => rfl
      | some e2 =>
        rw [Option.some_bind, Option.some_bind]
        exact ih hbad2

/-- C1: corrected form.  When the selector list contains a selector
that is not a single simple class selector, `handle_composes` returns
`InvalidComposesSelector` — but the export table is not left untouched:
it keeps exactly the mutations committed for the valid single-class
selectors preceding the first invalid one (`runValidPrefix` over
`takeWhile`); only the invalid selector and everything after it cause
no mutation. -/
theorem c1_thm (cm : CssModule) (sels : List Selector) (comp : Composes)
    (hbad : ∃ sel ∈ sels, asSingleClass sel = none) :
    cm.handle_composes sels comp =
      (runValidPrefix cm.config cm.hash comp (sels.takeWhile isSingleClass)
          cm.exports).map
        (fun e2 => (e2, Except.error PrinterErrorKind.invalidComposesSelector)) :=
  handleLoop_invalid hbad

/-- C1 counterexample: with selector list `.a, .a.b` (the second one a
compound of two classes) and `composes: x from global`, the call
returns the `InvalidComposesSelector` error, yet the export entry of
`a` has been mutated (it gained the `Global "x"` reference) — refuting
"no export entry in the export table is mutated by the call". -/
theorem c1_counterexample :
    CssModule.handle_composes
        ⟨⟨Pattern.default⟩, "HH", [("a", ⟨"HH_a", [], false⟩)]⟩
        [[Component.cls "a"], [Component.cls "a", Component.cls "b"]]
        ⟨["x"], some ComposesFrom.global⟩ =
      some ([("a", ⟨"HH_a", [CssModuleReference.global "x"], false⟩)],
        Except.error PrinterErrorKind.invalidComposesSelector) ∧
    ¬ ([("a", (⟨"HH_a", [CssModuleReference.global "x"], false⟩ : CssModuleExport))] =
        [("a", (⟨"HH_a", [], false⟩ : CssModuleExport))]) := by
  constructor
  · rfl
  · decide

/-- C1 witness. -/
theorem c1_witness :
    CssModule.handle_composes
        ⟨⟨Pattern.default⟩, "HH", [("a", ⟨"HH_a", [], false⟩)]⟩
        [[Component.cls "a"], [Component.cls "a", Component.cls "b"]]
        ⟨["x"], some ComposesFrom.global⟩ =
      (runValidPrefix ⟨Pattern.default⟩ "HH"
          ⟨["x"], some ComposesFrom.global⟩
          ([[Component.cls "a"], [Component.cls "a", Component.cls "b"]].takeWhile
            isSingleClass)
          [("a", ⟨"HH_a", [], false⟩)]).map
        (fun e2 => (e2, Except.error PrinterErrorKind.invalidComposesSelector)) :=
  c1_thm _ _ _
    ⟨[Component.cls "a", Component.cls "b"], by decide, rfl⟩

/-! ### Claim C10 -/

theorem handleLoop_total {config : Config} {hash : String} {comp : Composes} :
    ∀ {sels : List Selector} {e : CssModuleExports},
      (∀ sel ∈ sels, ∀ id, asSingleClass sel = some id →
        (findExport e id).isSome = true) →
      (∀ n ∈ comp.names, (buildReference config hash comp.from' n).isSome = true) →
      (handleLoop config hash comp sels e).isSome = true := by
  intro sels
  induction sels with
  | nil =>
    intro e _ _
    rw [handleLoop_nil]
    rfl
  | cons sel rest ih =>
    intro e hpres hb
    cases hs : asSingleClass sel with
    | none =>
      rw [handleLoop_cons_none hs]
      rfl
    | some id =>
      rw [handleLoop_cons_some hs]
      have hfind : (findExport e id).isSome = true :=
        hpres sel (List.mem_cons_self sel rest) id hs
      cases hc : composeNames config hash comp.from' id comp.names e with
      | none =>
        have := composeNames_total hb hfind
        rw [hc] at this
        exact absurd this (by simp)
      | some e2 =>
        rw [Option.some_bind]
        apply ih _ hb
        intro s hmem id2 hid2
        rw [composeNames_isSome_preserved hc id2]
        exact hpres s (List.mem_cons_of_mem sel hmem) id2 hid2

/-- C10: `handle_composes` requires every class named by a valid
single-class selector to be present in the export table; under that
precondition (plus success of the reference construction, which the
`[name]`-pattern panic could otherwise break independently of the
lookup) the internal `get_mut(..).unwrap()` lookup never fails and the
call returns (`isSome`); and on a concrete input violating the
precondition the call panics (`none`) instead of returning an error. -/
theorem c10_thm (cm : CssModule) (sels : List Selector) (comp : Composes)
    (hpres : ∀ sel ∈ sels, ∀ id, asSingleClass sel = some id →
      (findExport cm.exports id).isSome = true)
    (hbuild : ∀ n ∈ comp.names,
      (buildReference cm.config cm.hash comp.from' n).isSome = true) :
    (cm.handle_composes sels comp).isSome = true ∧
    CssModule.handle_composes ⟨⟨Pattern.default⟩, "HH", []⟩
        [[Component.cls "a"]] ⟨["x"], some ComposesFrom.global⟩ = none :=
  ⟨handleLoop_total hpres hbuild, by rfl⟩

/-- C10 witness. -/
theorem c10_witness :
    (CssModule.handle_composes ⟨⟨Pattern.default⟩, "HH", [("a", ⟨"HH_a", [], false⟩)]⟩
        [[Component.cls "a"]] ⟨["x"], some ComposesFrom.global⟩).isSome = true ∧
    CssModule.handle_composes ⟨⟨Pattern.default⟩, "HH", []⟩
        [[Component.cls "a"]] ⟨["x"], some ComposesFrom.global⟩ = none :=
  c10_thm ⟨⟨Pattern.default⟩, "HH", [("a", ⟨"HH_a", [], false⟩)]⟩
    [[Component.cls "a"]] ⟨["x"], some ComposesFrom.global⟩
    (by decide) (by decide)

/-! ### Claim C6 -/

theorem composeNames_nil {config : Config} {hash : String} {f : Option ComposesFrom} {id : String}
    {e : CssModuleExports} : composeNames config hash f id [] e = some e := rfl

theorem composeNames_cons {config : Config} {hash : String} {f : Option ComposesFrom} {id n : String}
    {rest : List String} {e : CssModuleExports} :
    composeNames config hash f id (n :: rest) e =
      (composeName config hash f id n e).bind (fun e2 => composeNames config hash f id rest e2) := rfl

theorem findExport_mem {e : CssModuleExports} {k : String} {v : CssModuleExport}
    (h : findExport e k = some v) : (k, v) ∈ e := by
  induction e with
  | nil => exact Option.noConfusion h
  | cons p rest ih =>
    rw [findExport_cons] at h
    by_cases hp : p.1 = k
    · rw [if_pos hp] at h
      injection h with h
      have : p = (k, v) := by
        rcases p with ⟨p1, p2⟩
        rw [Prod.mk.injEq]
        exact ⟨hp, h⟩
      exact this ▸ List.mem_cons_self p rest
    · rw [if_neg hp] at h
      exact List.mem_cons_of_mem p (ih h)

theorem composeName_nodup {config : Config} {hash : String} {f : Option ComposesFrom} {id n : String}
    {e e' : CssModuleExports} (h : composeName config hash f id n e = some e')
    (hk : (e.map Prod.fst).Nodup) (hn : composesNodup e) : composesNodup e' := by
  unfold composeName at h
  cases hb : buildReference config hash f n with
  | none => rw [hb] at h; simp at h
  | some ref =>
    rw [hb, Option.some_bind] at h
    cases hf : findExport e id with
    | none => rw [hf] at h; simp at h
    | some exp =>
      rw [hf, Option.map_some'] at h
      injection h with h
      by_cases hc : exp.composes.contains ref
      · rw [if_pos hc] at h
        rw [← h]
        exact hn
      · rw [if_neg hc] at h
        subst h
        intro p hp
        unfold updateExport at hp
        obtain ⟨q, hq, hpq⟩ := List.mem_map.mp hp
        by_cases hqk : q.1 = id
        · rw [if_pos hqk] at hpq
          have hfq : findExport e q.1 = some q.2 :=
            findExport_eq_of_mem_nodup hk (by rcases q with ⟨q1, q2⟩; exact hq)
          rw [hqk, hf] at hfq
          injection hfq with hfq
          have hnd : q.2.composes.Nodup := hn q hq
          have hmem : ref ∉ q.2.composes := by
            rw [← hfq]
            simpa using hc
          rw [← hpq]
          simpa [List.nodup_append] using ⟨hnd, hmem⟩
        · rw [if_neg hqk] at hpq
          rw [← hpq]
          exact hn q hq

theorem composeNames_nodup {config : Config} {hash : String} {f : Option ComposesFrom} {id : String} :
    ∀ {names : List String} {e e' : CssModuleExports},
      composeNames config hash f id names e = some e' →
      (e.map Prod.fst).Nodup → composesNodup e → composesNodup e' := by
  intro names
  induction names with
  | nil =>
    intro e e' h hk hn
    rw [composeNames_nil] at h
    injection h with h
    rw [← h]
    exact hn
  | cons m rest ih =>
    intro e e' h hk hn
    rw [composeNames_cons] at h
    cases hc : composeName config hash f id m e with
    | none => rw [hc] at h; simp at h
    | some e2 =>
      rw [hc, Option.some_bind] at h
      exact ih h (by rw [composeName_keys hc]; exact hk) (composeName_nodup hc hk hn)

theorem handleLoop_nodup {config : Config} {hash : String} {comp : Composes} :
    ∀ {sels : List Selector} {e e1 : CssModuleExports}
      {res : Except PrinterErrorKind Unit},
      handleLoop config hash comp sels e = some (e1, res) →
      (e.map Prod.fst).Nodup → composesNodup e → composesNodup e1 := by
  intro sels
  induction sels with
  | nil =>
    intro e e1 res h hk hn
    rw [handleLoop_nil] at h
    injection h with h
    injection h with h1 h2
    rw [← h1]
    exact hn
  | cons sel rest ih =>
    intro e e1 res h hk hn
    cases hs : asSingleClass sel with
    | none =>
      rw [handleLoop_cons_none hs] at h
      injection h with h
      injection h with h1 h2
      rw [← h1]
      exact hn
    | some id =>
      rw [handleLoop_cons_some hs] at h
      cases hc : composeNames config hash comp.from' id comp.names e with
      | none => rw [hc] at h; simp at h
      | some e2 =>
        rw [hc, Option.some_bind] at h
        exact ih h (by rw [composeNames_keys hc]; exact hk)
          (composeNames_nodup hc hk hn)

/-- C6: every export's `composes` list stays duplicate-free through
`handle_composes` (whatever result it returns); a successful call is
idempotent — re-running it adds nothing — and in the double-compose
scenario of the claim (one class selector, one composed name) the
matching reference occurs exactly once in that class's `composes`
list. -/
theorem c6_thm (cm : CssModule) (sels : List Selector) (comp : Composes)
    (hkeys : (cm.exports.map Prod.fst).Nodup) (hcomp : composesNodup cm.exports) :
    (∀ e1 res, cm.handle_composes sels comp = some (e1, res) → composesNodup e1) ∧
    (∀ e1 u, cm.handle_composes sels comp = some (e1, Except.ok u) →
      CssModule.handle_composes ⟨cm.config, cm.hash, e1⟩ sels comp =
        some (e1, Except.ok ())) ∧
    (∀ n ref id e1 u, comp = ⟨[n], comp.from'⟩ → sels = [[Component.cls id]] →
      buildReference cm.config cm.hash comp.from' n = some ref →
      cm.handle_composes sels comp = some (e1, Except.ok u) →
      ∀ exp, findExport e1 id = some exp → exp.composes.count ref = 1) := by
  refine ⟨?_, ?_, ?_⟩
  · intro e1 res h
    exact handleLoop_nodup h hkeys hcomp
  · intro e1 u h
    exact handleLoop_idem h
  · intro n ref id e1 u hcn hsels hb h exp hfe
    subst hsels
    rw [hcn] at h
    unfold CssModule.handle_composes at h
    rw [handleLoop_cons_some (show asSingleClass [Component.cls id] = some id from rfl),
      composeNames_cons] at h
    unfold composeName at h
    rw [hb, Option.some_bind] at h
    cases hf : findExport cm.exports id with
    | none => rw [hf] at h; simp at h
    | some exp0 =>
      rw [hf, Option.map_some'] at h
      by_cases hc : exp0.composes.contains ref
      · rw [if_pos hc, Option.some_bind, composeNames_nil, Option.some_bind,
          handleLoop_nil] at h
        injection h with h
        injection h with h1 h2
        subst h1
        rw [hf] at hfe
        injection hfe with hfe
        subst hfe
        exact List.count_eq_one_of_mem (hcomp _ (findExport_mem hf)) (by simpa using hc)
      · rw [if_neg hc, Option.some_bind, composeNames_nil, Option.some_bind,
          handleLoop_nil] at h
        injection h with h
        injection h with h1 h2
        subst h1
        rw [findExport_update_self hf] at hfe
        injection hfe with hfe
        subst hfe
        have hnotmem : ref ∉ exp0.composes := by simpa using hc
        simp [List.count_append, List.count_eq_zero.mpr hnotmem]

/-- C6 witness. -/
theorem c6_witness :
    CssModule.handle_composes
        ⟨⟨Pattern.default⟩, "HH", [("a", ⟨"HH_a", [CssModuleReference.global "x"], false⟩)]⟩
        [[Component.cls "a"]] ⟨["x"], some ComposesFrom.global⟩ =
      some ([("a", ⟨"HH_a", [CssModuleReference.global "x"], false⟩)], Except.ok ()) ∧
    List.count (CssModuleReference.global "x")
        (CssModuleExport.composes ⟨"HH_a", [CssModuleReference.global "x"], false⟩) = 1 := by
  constructor
  · exact (c6_thm ⟨⟨Pattern.default⟩, "HH", [("a", ⟨"HH_a", [], false⟩)]⟩
      [[Component.cls "a"]] ⟨["x"], some ComposesFrom.global⟩
      (by decide) (by unfold composesNodup; decide)).2.1
      [("a", ⟨"HH_a", [CssModuleReference.global "x"], false⟩)] () (by rfl)
  · exact (c6_thm ⟨⟨Pattern.default⟩, "HH", [("a", ⟨"HH_a", [], false⟩)]⟩
      [[Component.cls "a"]] ⟨["x"], some ComposesFrom.global⟩
      (by decide) (by unfold composesNodup; decide)).2.2
      "x" (CssModuleReference.global "x") "a"
      [("a", ⟨"HH_a", [CssModuleReference.global "x"], false⟩)] () rfl rfl (by rfl)
      (by rfl) ⟨"HH_a", [CssModuleReference.global "x"], false⟩ (by rfl)

/-! ### Claim C2 -/

/-- C2 counterexample: a sheet whose CSS-modules config is the default
pattern and whose rules perform no dashed-identifier lookup at all
still gets `references = some (empty map)` from `to_css` — the field is
present whenever modules are configured, not "only when the pattern
produces dashed-identifier style lookups". -/
theorem c2_counterexample :
    StyleSheet.to_css ⟨[], ["a.css"], [none], ⟨"a.css", some ⟨Pattern.default⟩, false⟩⟩ =
      some (Except.ok ⟨"\n", some [], some [], none⟩) ∧
    ([] : CssRuleList).all (fun ev => !isDashedEvent ev) = true := by
  constructor
  · rfl
  · rfl

/-- C2 (amended): for every sheet on which `to_css` succeeds, `exports`
and `references` are both present exactly when module scoping is
configured (`references` possibly an empty map), and both absent when
it is not. -/
theorem c2_thm (s : StyleSheet) (res : ToCssResult)
    (h : s.to_css = some (Except.ok res)) :
    res.exports.isSome = s.options.css_modules.isSome ∧
    res.references.isSome = s.options.css_modules.isSome := by
  unfold StyleSheet.to_css at h
  cases hcm : s.options.css_modules with
  | none =>
    rw [hcm] at h
    injection h with h
    injection h with h
    rw [← h]
    exact ⟨rfl, rfl⟩
  | some config =>
    rw [hcm] at h
    replace h :
        (match runModuleEvents config (hashString (s.sources.headD "")) s.rules [] [] with
          | none => none
          | some (Except.error e) => some (Except.error e)
          | some (Except.ok out) =>
              some (Except.ok
                { code := out.1 ++ "\n"
                  exports := some out.2.1
                  references := some out.2.2
                  dependencies := none })) = some (Except.ok res) := h
    cases hr : runModuleEvents config (hashString (s.sources.headD "")) s.rules [] [] with
    | none => rw [hr] at h; simp at h
    | some r =>
      rw [hr] at h
      cases r with
      | error e =>
        injection h with h
        exact Except.noConfusion h
      | ok out =>
        injection h with h
        injection h with h
        rw [← h]
        exact ⟨rfl, rfl⟩

/-- C2 witness. -/
theorem c2_witness :
    (ToCssResult.exports ⟨"\n", none, none, none⟩).isSome =
        (ParserOptions.css_modules ⟨"a.css", none, false⟩).isSome ∧
    (ToCssResult.references ⟨"\n", none, none, none⟩).isSome =
        (ParserOptions.css_modules ⟨"a.css", none, false⟩).isSome :=
  c2_thm ⟨[], ["a.css"], [none], ⟨"a.css", none, false⟩⟩ ⟨"\n", none, none, none⟩
    (by rfl)

/-! ### Claim C9 -/

/-- C9 counterexample: `StyleSheet::new` keeps the caller's sources but
initializes `source_map_urls` to the empty vector, so a sheet built by
`new` with one source has lists of lengths 1 and 0 — not
index-aligned. -/
theorem c9_counterexample :
    (StyleSheet.new ["a.css"] [] ⟨"a.css", none, false⟩).sources.length = 1 ∧
    (StyleSheet.new ["a.css"] [] ⟨"a.css", none, false⟩).source_map_urls.length = 0 := by
  exact ⟨rfl, rfl⟩

/-- C9 (amended): sheets produced by `StyleSheet::parse` have `sources`
and `source_map_urls` index-aligned (one entry each, the parsed file
and its optional inline source-map URL); `StyleSheet::new` instead
always creates an empty `source_map_urls`, so its sheets are aligned
only when the given `sources` list is itself empty. -/
theorem c9_thm (ruleResults : List (Except ParserError RuleEvent))
    (smUrl : Option String) (options : ParserOptions) (s' : StyleSheet)
    (h : StyleSheet.parse ruleResults smUrl options = Except.ok s') :
    (s'.sources.length = 1 ∧ s'.source_map_urls.length = 1 ∧
      s'.sources.length = s'.source_map_urls.length) ∧
    (∀ sources rules opts,
      (StyleSheet.new sources rules opts).source_map_urls = []) := by
  constructor
  · unfold StyleSheet.parse at h
    cases hc : collectRules options.error_recovery ruleResults with
    | error e => rw [hc] at h; simp [Except.map] at h
    | ok rules =>
      rw [hc] at h
      simp only [Except.map] at h
      injection h with h
      rw [← h]
      exact ⟨rfl, rfl, rfl⟩
  · intro sources rules opts
    rfl

/-- C9 witness. -/
theorem c9_witness :
    ((StyleSheet.sources ⟨[], ["a.css"], [none], ⟨"a.css", none, false⟩⟩).length = 1 ∧
      (StyleSheet.source_map_urls ⟨[], ["a.css"], [none], ⟨"a.css", none, false⟩⟩).length
          = 1 ∧
      (StyleSheet.sources ⟨[], ["a.css"], [none], ⟨"a.css", none, false⟩⟩).length =
        (StyleSheet.source_map_urls
          ⟨[], ["a.css"], [none], ⟨"a.css", none, false⟩⟩).length) ∧
    (∀ sources rules opts,
      (StyleSheet.new sources rules opts).source_map_urls = []) :=
  c9_thm [] none ⟨"a.css", none, false⟩
    ⟨[], ["a.css"], [none], ⟨"a.css", none, false⟩⟩ (by rfl)

end CssMod
